import Mathlib

/-!
# EARL (Evolutionary Adaptive Reinforcement Learner) — verification development

A shallow embedding of `earl.py` (class `EARL_Agent`) over exact rationals.

Modelling conventions:
* Python floats are modelled as `ℚ` (exact arithmetic).
* The ambient pseudo-random source is modelled by explicit draw streams:
  a `TickInput` carries, for one `tick()` call, the stream of
  `random.uniform(-mutation_strength, mutation_strength)` draws used by
  `_mutate_weight_map` (one per weight index), the stream of
  `random.random()` draws used by the sampling loop (one per weight index),
  and the value returned by `self.fitness_func()` this tick.
* The action space consists of externally supplied side-effecting callables;
  only its size `n` is relevant to the agent's own state transition
  (actions are invoked for their side effects and their results discarded),
  so the embedding keeps `n` and treats the calls as external events.
* Python list indexing `l[i]` on in-range indices is modelled by
  `List.getD l i 0`; in-place assignment `l[i] = v` by `List.set`.
  All indices produced by the sampling loop are in range, as in the source.
* `self.ticks % self.mutation_step` is modelled with `Int.emod`, which
  agrees with Python `%` for a nonnegative dividend and positive divisor
  (claims about ticks assume `mutation_step ≥ 1`, where the two agree).
-/

/-- State of `EARL_Agent` (`earl.py`, `__init__`): every mutable attribute of
the Python object, with the action space abstracted to its size `n`. -/
structure EARL_Agent where
  n : ℕ
  weight_map : List ℚ
  alpha : ℚ
  last_fitness : ℚ
  mutation_step : ℤ
  weight_variance_threshold : ℚ
  min_mutation_step : ℤ
  max_mutation_step : ℤ
  mutation_strength : ℚ
  history : List ℚ
  history_bias_strength : ℚ
  history_decay_factor : ℚ
  ticks : ℕ
deriving Repr

/-- `EARL_Agent._normalize` (earl.py:55-68): divide each element by the total;
if the total is zero, return `1/n` repeated `n` times (for `n = 0` the Python
list comprehension is empty and no division is evaluated, giving `[]`). -/
def _normalize (l : List ℚ) : List ℚ :=
  if l.sum ≠ 0 then
    l.map (fun i => i / l.sum)
  else
    List.replicate l.length ((1 : ℚ) / (l.length : ℚ))

/-- `EARL_Agent._variance` (earl.py:70-80): population variance, 0 on `[]`. -/
def _variance (l : List ℚ) : ℚ :=
  if l = [] then 0
  else
    (l.map (fun x => (x - l.sum / (l.length : ℚ)) ^ 2)).sum / (l.length : ℚ)

/-- `EARL_Agent._generate_weight_map` (earl.py:82-89): one `random.random()`
draw per action (supplied as the stream `draws`), then `_normalize`. -/
def _generate_weight_map (n : ℕ) (draws : ℕ → ℚ) : List ℚ :=
  _normalize ((List.range n).map draws)

/-- `EARL_Agent.__init__` (earl.py:34-53): fresh agent over `n` actions.
`initDraws` models the `random.random()` draws used by
`_generate_weight_map`; `fitness0` models the initial `self.fitness_func()`
probe assigned to `last_fitness`. -/
def EARL_Agent.init (n : ℕ) (initDraws : ℕ → ℚ) (fitness0 : ℚ)
    (weight_variance_threshold mutation_strength : ℚ)
    (min_mutation_step max_mutation_step : ℤ)
    (history_bias_strength history_decay_factor alpha : ℚ) : EARL_Agent :=
  { n := n
    weight_map := _generate_weight_map n initDraws
    alpha := alpha
    last_fitness := fitness0
    mutation_step := min_mutation_step
    weight_variance_threshold := weight_variance_threshold
    min_mutation_step := min_mutation_step
    max_mutation_step := max_mutation_step
    mutation_strength := mutation_strength
    history := List.replicate n 0
    history_bias_strength := history_bias_strength
    history_decay_factor := history_decay_factor
    ticks := 0 }

/-- `EARL_Agent._adjust_mutation_step` (earl.py:126-136). -/
def _adjust_mutation_step (a : EARL_Agent) : EARL_Agent :=
  if _variance a.weight_map < a.weight_variance_threshold then
    { a with mutation_step := max a.min_mutation_step (a.mutation_step - 1) }
  else
    { a with mutation_step := min a.max_mutation_step (a.mutation_step + 1) }

/-- `EARL_Agent._mutate_weight_map` (earl.py:138-147): for each index `i`,
`weight_map[i] = min(1, max(0, weight_map[i] + uniform(-s, s)))`; `draws i`
models the `random.uniform(-mutation_strength, mutation_strength)` draw. -/
def _mutate_weight_map (a : EARL_Agent) (draws : ℕ → ℚ) : EARL_Agent :=
  { a with weight_map :=
      ((List.range a.weight_map.length).map
        (fun i => min 1 (max 0 (a.weight_map.getD i 0 + draws i)))) }

/-- Sampling loop of `tick` (earl.py:104-108): index `i` is recorded (and its
action invoked) iff `random.random() < weight_map[i]`; one draw per index, in
order, so the fired list is the increasing list of such indices. -/
def sampleIndices (weights : List ℚ) (draws : ℕ → ℚ) : List ℕ :=
  (List.range weights.length).filter (fun i => draws i < weights.getD i 0)

/-- Body of the `for index in indices` loop of `_adjust_weight_map`
(earl.py:162-165), acting on the pair (weight_map, history). -/
def adjustStep (history_decay_factor history_bias_strength alpha
    weight_modifier : ℚ) (p : List ℚ × List ℚ) (index : ℕ) :
    List ℚ × List ℚ :=
  let hist := p.2.set index (p.2.getD index 0 * history_decay_factor)
  let history_bias := 1 + hist.getD index 0 * history_bias_strength
  let wm := p.1.set index
    (min 1 (max 0 (p.1.getD index 0 + weight_modifier * alpha * history_bias)))
  (wm, hist)

/-- `EARL_Agent._adjust_weight_map` (earl.py:149-167): early return on an
empty fired list; otherwise decay history and clip-update the weight at every
fired index, then renormalize the whole weight map. -/
def _adjust_weight_map (a : EARL_Agent) (delta_fitness : ℚ)
    (indices : List ℕ) : EARL_Agent :=
  if indices = [] then a
  else
    let weight_modifier := delta_fitness / (indices.length : ℚ)
    let p := indices.foldl
      (adjustStep a.history_decay_factor a.history_bias_strength a.alpha
        weight_modifier)
      (a.weight_map, a.history)
    { a with weight_map := _normalize p.1, history := p.2 }

/-- History loop of `tick` (earl.py:117-122): `history[i] += 1` for every
fired `i` when `delta_fitness > 0`, else `history[i] = 0`. -/
def updateHistory (delta_fitness : ℚ) (indices : List ℕ)
    (hist : List ℚ) : List ℚ :=
  if 0 < delta_fitness then
    indices.foldl (fun h index => h.set index (h.getD index 0 + 1)) hist
  else
    indices.foldl (fun h index => h.set index 0) hist

/-- External events consumed by one `tick()` call: the mutation draws, the
sampling draws, and the fitness value observed this tick. -/
structure TickInput where
  mutDraws : ℕ → ℚ
  sampleDraws : ℕ → ℚ
  fitness : ℚ

/-- Steps 1-2 of `tick` (earl.py:99-102): adjust the mutation step, then
mutate iff `ticks % mutation_step == 0`. -/
def afterMutation (a : EARL_Agent) (inp : TickInput) : EARL_Agent :=
  let a1 := _adjust_mutation_step a
  if (a1.ticks : ℤ) % a1.mutation_step = 0 then
    _mutate_weight_map a1 inp.mutDraws
  else a1

/-- The fired-index list of one `tick()` call (earl.py:104-108), computed on
the post-mutation weight map. -/
def firedIndices (a : EARL_Agent) (inp : TickInput) : List ℕ :=
  sampleIndices (afterMutation a inp).weight_map inp.sampleDraws

/-- `EARL_Agent.tick` (earl.py:91-124). -/
def tick (a : EARL_Agent) (inp : TickInput) : EARL_Agent :=
  let a2 := afterMutation a inp
  let indices := firedIndices a inp
  let delta_fitness := inp.fitness - a2.last_fitness
  let a3 := _adjust_weight_map a2 delta_fitness indices
  { a3 with
    last_fitness := inp.fitness
    history := updateHistory delta_fitness indices a3.history
    ticks := a3.ticks + 1 }

/-- A finite sequence of `tick()` calls. -/
def runTicks (a : EARL_Agent) (inputs : List TickInput) : EARL_Agent :=
  inputs.foldl tick a

/-! ## Basic lemmas about `_normalize` and `_variance` -/

lemma sum_map_div (l : List ℚ) (t : ℚ) :
    (l.map (fun x => x / t)).sum = l.sum / t := by
  induction l with
  | nil => simp
  | cons a l ih => simp [ih, add_div]

lemma length_normalize (l : List ℚ) : (_normalize l).length = l.length := by
  unfold _normalize
  split <;> simp

lemma sum_normalize (l : List ℚ) (h : l ≠ []) : (_normalize l).sum = 1 := by
  have hlen : (l.length : ℚ) ≠ 0 := by
    exact_mod_cast Nat.pos_iff_ne_zero.mp (List.length_pos.mpr h)
  unfold _normalize
  split
  · rename_i ht
    rw [sum_map_div, div_self ht]
  · rename_i ht
    rw [List.sum_replicate, nsmul_eq_mul, mul_one_div, div_self hlen]

lemma mem_normalize_of_nonneg (l : List ℚ) (hnn : ∀ x ∈ l, 0 ≤ x) :
    ∀ y ∈ _normalize l, 0 ≤ y ∧ y ≤ 1 := by
  intro y hy
  unfold _normalize at hy
  split at hy
  · rename_i ht
    have hpos : 0 < l.sum :=
      lt_of_le_of_ne (List.sum_nonneg hnn) (Ne.symm ht)
    obtain ⟨x, hx, rfl⟩ := List.mem_map.mp hy
    constructor
    · exact div_nonneg (hnn x hx) hpos.le
    · exact (div_le_one hpos).mpr (List.single_le_sum hnn x hx)
  · have hne : l ≠ [] := by
      rintro rfl
      simp at hy
    have hlen : (0 : ℚ) < (l.length : ℚ) := by
      exact_mod_cast List.length_pos.mpr hne
    have := List.eq_of_mem_replicate hy
    subst this
    constructor
    · positivity
    · rw [div_le_one hlen]
      exact_mod_cast Nat.one_le_iff_ne_zero.mpr
        (Nat.pos_iff_ne_zero.mp (List.length_pos.mpr hne))

/-- C2: `normalize` is pure: on a non-empty sequence of non-negative reals
with non-zero total it returns the same-length sequence of `input[i] / total`
(which sums to 1); on an all-zero input of length `N` it returns `N` copies
of `1/N`. -/
theorem normalize_correct (l : List ℚ) (hne : l ≠ []) (hnn : ∀ x ∈ l, 0 ≤ x) :
    (l.sum ≠ 0 →
      (_normalize l).length = l.length ∧
      (∀ i, i < l.length → (_normalize l).getD i 0 = l.getD i 0 / l.sum) ∧
      (_normalize l).sum = 1) ∧
    ((∀ x ∈ l, x = 0) →
      _normalize l = List.replicate l.length ((1 : ℚ) / (l.length : ℚ))) := by
  constructor
  · intro ht
    refine ⟨length_normalize l, ?_, sum_normalize l hne⟩
    intro i hi
    unfold _normalize
    rw [if_pos ht]
    rw [List.getD_eq_getElem?_getD, List.getD_eq_getElem?_getD,
      List.getElem?_map]
    rw [List.getElem?_eq_getElem hi]
    simp
  · intro hz
    have ht : l.sum = 0 := List.sum_eq_zero hz
    unfold _normalize
    rw [if_neg (by simpa using ht)]

/-- Closed-instance witness for `normalize_correct`. -/
theorem normalize_correct_witness :
    (([1, 3] : List ℚ).sum ≠ 0 →
      (_normalize [1, 3]).length = ([1, 3] : List ℚ).length ∧
      (∀ i, i < ([1, 3] : List ℚ).length →
        (_normalize [1, 3]).getD i 0 =
          ([1, 3] : List ℚ).getD i 0 / ([1, 3] : List ℚ).sum) ∧
      (_normalize [1, 3]).sum = 1) ∧
    ((∀ x ∈ ([1, 3] : List ℚ), x = 0) →
      _normalize [1, 3] =
        List.replicate ([1, 3] : List ℚ).length
          ((1 : ℚ) / (([1, 3] : List ℚ).length : ℚ))) :=
  normalize_correct [1, 3] (by simp)
    (by intro x hx; fin_cases hx <;> norm_num)

/-- C6: an agent constructed over an empty action space is accepted, and
normalization over zero actions is a no-op returning the empty weight map. -/
theorem empty_action_space_ok (initDraws : ℕ → ℚ) (fitness0 wvt ms : ℚ)
    (mn mx : ℤ) (hbs hdf al : ℚ) :
    _normalize ([] : List ℚ) = [] ∧
    (EARL_Agent.init 0 initDraws fitness0 wvt ms mn mx hbs hdf al).weight_map
      = [] := by
  constructor
  · simp [_normalize]
  · simp [EARL_Agent.init, _generate_weight_map, _normalize]

lemma sum_map_add_const (l : List ℚ) (c : ℚ) :
    (l.map (fun x => x + c)).sum = l.sum + (l.length : ℚ) * c := by
  induction l with
  | nil => simp
  | cons a l ih =>
    simp only [List.map_cons, List.sum_cons, ih, List.length_cons]
    push_cast
    ring

/-- C8: `variance` is pure and satisfies: variance of `[]` is 0, variance of
any constant sequence is 0, and variance is invariant under adding a constant
to every element. -/
theorem variance_props :
    _variance ([] : List ℚ) = 0 ∧
    (∀ (n : ℕ) (c : ℚ), _variance (List.replicate n c) = 0) ∧
    (∀ (l : List ℚ) (c : ℚ),
      _variance (l.map (fun x => x + c)) = _variance l) := by
  refine ⟨by simp [_variance], ?_, ?_⟩
  · intro n c
    rcases Nat.eq_zero_or_pos n with hn | hn
    · subst hn
      simp [_variance]
    · have hne : List.replicate n c ≠ [] := by
        simp [List.replicate_eq_nil_iff]
        omega
      have hsum : (List.replicate n c).sum = (n : ℚ) * c := by
        rw [List.sum_replicate, nsmul_eq_mul]
      have hlen : ((n : ℚ)) ≠ 0 := by
        exact_mod_cast Nat.pos_iff_ne_zero.mp hn
      unfold _variance
      rw [if_neg hne]
      rw [List.length_replicate, hsum, List.map_replicate]
      rw [mul_div_cancel_left₀ c hlen]
      simp
  · intro l c
    rcases eq_or_ne l [] with rfl | hne
    · simp
    · have hmapne : l.map (fun x => x + c) ≠ [] := by
        simpa using hne
      have hlen : ((l.length : ℚ)) ≠ 0 := by
        exact_mod_cast Nat.pos_iff_ne_zero.mp (List.length_pos.mpr hne)
      unfold _variance
      rw [if_neg hne, if_neg hmapne]
      rw [List.length_map, sum_map_add_const]
      have hmean : (l.sum + (l.length : ℚ) * c) / (l.length : ℚ)
          = l.sum / (l.length : ℚ) + c := by
        rw [add_div, mul_div_cancel_left₀ c hlen]
      rw [hmean, List.map_map]
      have hfun : ((fun x => (x - (l.sum / (l.length : ℚ) + c)) ^ 2) ∘
          fun x => x + c) = fun x => (x - l.sum / (l.length : ℚ)) ^ 2 := by
        funext x
        simp only [Function.comp]
        ring
      rw [hfun]

/-! ## Which fields each operation writes -/

@[simp] lemma mutate_fields (a : EARL_Agent) (d : ℕ → ℚ) :
    (_mutate_weight_map a d).mutation_step = a.mutation_step ∧
    (_mutate_weight_map a d).last_fitness = a.last_fitness ∧
    (_mutate_weight_map a d).history = a.history ∧
    (_mutate_weight_map a d).ticks = a.ticks ∧
    (_mutate_weight_map a d).min_mutation_step = a.min_mutation_step ∧
    (_mutate_weight_map a d).max_mutation_step = a.max_mutation_step :=
  ⟨rfl, rfl, rfl, rfl, rfl, rfl⟩

lemma adjust_mutation_step_fields (a : EARL_Agent) :
    (_adjust_mutation_step a).weight_map = a.weight_map ∧
    (_adjust_mutation_step a).last_fitness = a.last_fitness ∧
    (_adjust_mutation_step a).history = a.history ∧
    (_adjust_mutation_step a).ticks = a.ticks ∧
    (_adjust_mutation_step a).min_mutation_step = a.min_mutation_step ∧
    (_adjust_mutation_step a).max_mutation_step = a.max_mutation_step := by
  unfold _adjust_mutation_step
  split <;> exact ⟨rfl, rfl, rfl, rfl, rfl, rfl⟩

lemma adjust_weight_map_fields (a : EARL_Agent) (d : ℚ) (idx : List ℕ) :
    (_adjust_weight_map a d idx).mutation_step = a.mutation_step ∧
    (_adjust_weight_map a d idx).last_fitness = a.last_fitness ∧
    (_adjust_weight_map a d idx).ticks = a.ticks ∧
    (_adjust_weight_map a d idx).min_mutation_step = a.min_mutation_step ∧
    (_adjust_weight_map a d idx).max_mutation_step = a.max_mutation_step := by
  unfold _adjust_weight_map
  split <;> exact ⟨rfl, rfl, rfl, rfl, rfl⟩

lemma afterMutation_mutation_step (a : EARL_Agent) (inp : TickInput) :
    (afterMutation a inp).mutation_step =
      (_adjust_mutation_step a).mutation_step := by
  simp only [afterMutation]
  split
  · exact (mutate_fields _ _).1
  · rfl

lemma afterMutation_last_fitness (a : EARL_Agent) (inp : TickInput) :
    (afterMutation a inp).last_fitness = a.last_fitness := by
  simp only [afterMutation]
  split
  · exact ((mutate_fields _ _).2.1).trans (adjust_mutation_step_fields a).2.1
  · exact (adjust_mutation_step_fields a).2.1

lemma afterMutation_history (a : EARL_Agent) (inp : TickInput) :
    (afterMutation a inp).history = a.history := by
  simp only [afterMutation]
  split
  · exact ((mutate_fields _ _).2.2.1).trans (adjust_mutation_step_fields a).2.2.1
  · exact (adjust_mutation_step_fields a).2.2.1

lemma afterMutation_ticks (a : EARL_Agent) (inp : TickInput) :
    (afterMutation a inp).ticks = a.ticks := by
  simp only [afterMutation]
  split
  · exact ((mutate_fields _ _).2.2.2.1).trans
      (adjust_mutation_step_fields a).2.2.2.1
  · exact (adjust_mutation_step_fields a).2.2.2.1

lemma tick_mutation_step_eq (a : EARL_Agent) (inp : TickInput) :
    (tick a inp).mutation_step = (_adjust_mutation_step a).mutation_step := by
  show (_adjust_weight_map (afterMutation a inp) _ _).mutation_step = _
  rw [(adjust_weight_map_fields _ _ _).1, afterMutation_mutation_step]

/-- C4: the mutation-step adjustment happens first in every `tick()` and is
computed on the weight map as it stood at the end of the previous tick:
below-threshold variance decrements `mutation_step` (floored at
`min_mutation_step`), otherwise it is incremented (capped at
`max_mutation_step`). -/
theorem tick_mutation_step_formula (a : EARL_Agent) (inp : TickInput) :
    (tick a inp).mutation_step =
      if _variance a.weight_map < a.weight_variance_threshold then
        max a.min_mutation_step (a.mutation_step - 1)
      else
        min a.max_mutation_step (a.mutation_step + 1) := by
  rw [tick_mutation_step_eq]
  unfold _adjust_mutation_step
  split <;> rfl

/-- C9: `tick` is deterministic given the random stream: two agents with
identical configuration and identical draw/fitness streams have identical
weight maps after every prefix of ticks. -/
theorem tick_deterministic (a1 a2 : EARL_Agent) (L1 L2 : List TickInput)
    (ha : a1 = a2) (hL : L1 = L2) (k : ℕ) :
    (runTicks a1 (L1.take k)).weight_map
      = (runTicks a2 (L2.take k)).weight_map := by
  subst ha
  subst hL
  rfl

/-- Seeded concrete agent for the determinism scenario: 3 no-op actions,
default configuration, constant-zero fitness. -/
def detAgent : EARL_Agent :=
  EARL_Agent.init 3 (fun _ => 1/2) 0 (1/2) (1/10) 3 10 (1/10) (9/10) 1

/-- Concrete identically-seeded stream of two ticks with constant fitness. -/
def detInputs : List TickInput :=
  [⟨fun _ => 1/10, fun _ => 1/4, 0⟩, ⟨fun _ => 1/20, fun _ => 3/4, 0⟩]

/-- Closed-instance witness for `tick_deterministic`. -/
theorem tick_deterministic_witness :
    (runTicks detAgent (detInputs.take 2)).weight_map
      = (runTicks detAgent (detInputs.take 2)).weight_map :=
  tick_deterministic detAgent detAgent detInputs detInputs rfl rfl 2

lemma afterMutation_min_mutation_step (a : EARL_Agent) (inp : TickInput) :
    (afterMutation a inp).min_mutation_step = a.min_mutation_step := by
  simp only [afterMutation]
  split
  · exact ((mutate_fields _ _).2.2.2.2.1).trans
      (adjust_mutation_step_fields a).2.2.2.2.1
  · exact (adjust_mutation_step_fields a).2.2.2.2.1

lemma afterMutation_max_mutation_step (a : EARL_Agent) (inp : TickInput) :
    (afterMutation a inp).max_mutation_step = a.max_mutation_step := by
  simp only [afterMutation]
  split
  · exact ((mutate_fields _ _).2.2.2.2.2).trans
      (adjust_mutation_step_fields a).2.2.2.2.2
  · exact (adjust_mutation_step_fields a).2.2.2.2.2

lemma tick_min_mutation_step (a : EARL_Agent) (inp : TickInput) :
    (tick a inp).min_mutation_step = a.min_mutation_step := by
  show (_adjust_weight_map (afterMutation a inp) _ _).min_mutation_step = _
  rw [(adjust_weight_map_fields _ _ _).2.2.2.1, afterMutation_min_mutation_step]

lemma tick_max_mutation_step (a : EARL_Agent) (inp : TickInput) :
    (tick a inp).max_mutation_step = a.max_mutation_step := by
  show (_adjust_weight_map (afterMutation a inp) _ _).max_mutation_step = _
  rw [(adjust_weight_map_fields _ _ _).2.2.2.2, afterMutation_max_mutation_step]

lemma tick_mutation_step_mem (a : EARL_Agent) (inp : TickInput)
    (hmm : a.min_mutation_step ≤ a.max_mutation_step)
    (h1 : a.min_mutation_step ≤ a.mutation_step)
    (h2 : a.mutation_step ≤ a.max_mutation_step) :
    a.min_mutation_step ≤ (tick a inp).mutation_step ∧
    (tick a inp).mutation_step ≤ a.max_mutation_step := by
  rw [tick_mutation_step_formula]
  split
  · exact ⟨le_max_left _ _, max_le hmm (by omega)⟩
  · exact ⟨le_min hmm (by omega), min_le_left _ _⟩

lemma runTicks_mutation_step_inv :
    ∀ (inputs : List TickInput) (a : EARL_Agent),
    a.min_mutation_step ≤ a.max_mutation_step →
    a.min_mutation_step ≤ a.mutation_step →
    a.mutation_step ≤ a.max_mutation_step →
    a.min_mutation_step ≤ (runTicks a inputs).mutation_step ∧
    (runTicks a inputs).mutation_step ≤ a.max_mutation_step := by
  intro inputs
  induction inputs with
  | nil => exact fun a _ h1 h2 => ⟨h1, h2⟩
  | cons inp rest ih =>
    intro a hmm h1 h2
    have hstep := tick_mutation_step_mem a inp hmm h1 h2
    have hmin := tick_min_mutation_step a inp
    have hmax := tick_max_mutation_step a inp
    have := ih (tick a inp) (by rw [hmin, hmax]; exact hmm)
      (by rw [hmin]; exact hstep.1) (by rw [hmax]; exact hstep.2)
    exact ⟨by rw [← hmin]; exact this.1, by rw [← hmax]; exact this.2⟩

/-- C5: with `min_mutation_step ≤ max_mutation_step`, a freshly constructed
agent starts with `mutation_step = min_mutation_step` and after any finite
sequence of ticks `mutation_step` stays in
`[min_mutation_step, max_mutation_step]`. -/
theorem mutation_step_in_bounds (n : ℕ) (initDraws : ℕ → ℚ)
    (fitness0 wvt ms : ℚ) (mn mx : ℤ) (hbs hdf al : ℚ) (hle : mn ≤ mx)
    (inputs : List TickInput) :
    (EARL_Agent.init n initDraws fitness0 wvt ms mn mx hbs hdf al).mutation_step
      = mn ∧
    mn ≤ (runTicks
      (EARL_Agent.init n initDraws fitness0 wvt ms mn mx hbs hdf al)
      inputs).mutation_step ∧
    (runTicks (EARL_Agent.init n initDraws fitness0 wvt ms mn mx hbs hdf al)
      inputs).mutation_step ≤ mx := by
  refine ⟨rfl, ?_⟩
  have := runTicks_mutation_step_inv inputs
    (EARL_Agent.init n initDraws fitness0 wvt ms mn mx hbs hdf al)
    hle le_rfl hle
  exact this

/-- Closed-instance witness for `mutation_step_in_bounds`. -/
theorem mutation_step_in_bounds_witness :
    (EARL_Agent.init 2 (fun _ => 1/2) 0 (1/2) (1/10) 3 10 (1/10) (9/10)
      1).mutation_step = 3 ∧
    3 ≤ (runTicks
      (EARL_Agent.init 2 (fun _ => 1/2) 0 (1/2) (1/10) 3 10 (1/10) (9/10) 1)
      [⟨fun _ => 0, fun _ => 1, 5⟩]).mutation_step ∧
    (runTicks (EARL_Agent.init 2 (fun _ => 1/2) 0 (1/2) (1/10) 3 10 (1/10)
      (9/10) 1) [⟨fun _ => 0, fun _ => 1, 5⟩]).mutation_step ≤ 10 :=
  mutation_step_in_bounds 2 (fun _ => 1/2) 0 (1/2) (1/10) 3 10 (1/10) (9/10) 1
    (by decide) [⟨fun _ => 0, fun _ => 1, 5⟩]

/-! ## Indexing and fold lemmas -/

lemma getD_set_self (l : List ℚ) (i : ℕ) (v : ℚ) (h : i < l.length) :
    (l.set i v).getD i 0 = v := by
  simp [List.getD_eq_getElem?_getD, List.getElem?_set_self, h]

lemma getD_set_ne (l : List ℚ) (i j : ℕ) (v : ℚ) (h : j ≠ i) :
    (l.set i v).getD j 0 = l.getD j 0 := by
  simp [List.getD_eq_getElem?_getD, List.getElem?_set_ne (Ne.symm h)]

lemma mem_sampleIndices {w : List ℚ} {d : ℕ → ℚ} {i : ℕ} :
    i ∈ sampleIndices w d ↔ i < w.length ∧ d i < w.getD i 0 := by
  simp [sampleIndices, List.mem_filter, List.mem_range]

lemma sampleIndices_nodup (w : List ℚ) (d : ℕ → ℚ) :
    (sampleIndices w d).Nodup :=
  List.Nodup.filter _ (List.nodup_range _)

lemma sampleIndices_length_le (w : List ℚ) (d : ℕ → ℚ) :
    (sampleIndices w d).length ≤ w.length := by
  have h := List.length_filter_le
    (fun i => decide (d i < w.getD i 0)) (List.range w.length)
  simpa [sampleIndices, List.length_range] using h

lemma foldl_setD_getD (g : ℚ → ℚ) :
    ∀ (idx : List ℕ) (h : List ℚ), idx.Nodup → (∀ i ∈ idx, i < h.length) →
    ∀ j, (idx.foldl (fun h i => h.set i (g (h.getD i 0))) h).getD j 0 =
      if j ∈ idx then g (h.getD j 0) else h.getD j 0 := by
  intro idx
  induction idx with
  | nil =>
    intro h _ _ j
    simp
  | cons i is ih =>
    intro h hnd hbound j
    have hiL : i < h.length := hbound i (by simp)
    have hnd' : is.Nodup := (List.nodup_cons.mp hnd).2
    have hinotin : i ∉ is := (List.nodup_cons.mp hnd).1
    rw [List.foldl_cons]
    have hbound' : ∀ k ∈ is, k < (h.set i (g (h.getD i 0))).length := by
      intro k hk
      rw [List.length_set]
      exact hbound k (List.mem_cons_of_mem i hk)
    rw [ih _ hnd' hbound' j]
    by_cases hj : j ∈ is
    · have hji : j ≠ i := fun e => hinotin (e ▸ hj)
      rw [getD_set_ne _ _ _ _ hji,
        if_pos hj, if_pos (List.mem_cons_of_mem i hj)]
    · by_cases hji : j = i
      · subst hji
        rw [if_neg hj, getD_set_self _ _ _ hiL, if_pos (List.mem_cons_self j is)]
      · rw [if_neg hj, getD_set_ne _ _ _ _ hji,
          if_neg (by simp [hj, hji])]

lemma foldl_setD_length (g : ℚ → ℚ) :
    ∀ (idx : List ℕ) (h : List ℚ),
    (idx.foldl (fun h i => h.set i (g (h.getD i 0))) h).length = h.length := by
  intro idx
  induction idx with
  | nil => intro h; rfl
  | cons i is ih =>
    intro h
    rw [List.foldl_cons, ih, List.length_set]

lemma foldl_decay_getD (d : ℚ) (idx : List ℕ) (h : List ℚ)
    (hnd : idx.Nodup) (hb : ∀ i ∈ idx, i < h.length) (j : ℕ) :
    (idx.foldl (fun h i => h.set i (h.getD i 0 * d)) h).getD j 0 =
      if j ∈ idx then h.getD j 0 * d else h.getD j 0 := by
  simpa using foldl_setD_getD (fun x => x * d) idx h hnd hb j

lemma foldl_incr_getD (idx : List ℕ) (h : List ℚ)
    (hnd : idx.Nodup) (hb : ∀ i ∈ idx, i < h.length) (j : ℕ) :
    (idx.foldl (fun h i => h.set i (h.getD i 0 + 1)) h).getD j 0 =
      if j ∈ idx then h.getD j 0 + 1 else h.getD j 0 := by
  simpa using foldl_setD_getD (fun x => x + 1) idx h hnd hb j

lemma foldl_zero_getD (idx : List ℕ) (h : List ℚ)
    (hnd : idx.Nodup) (hb : ∀ i ∈ idx, i < h.length) (j : ℕ) :
    (idx.foldl (fun h i => h.set i 0) h).getD j 0 =
      if j ∈ idx then 0 else h.getD j 0 := by
  simpa using foldl_setD_getD (fun _ => 0) idx h hnd hb j

lemma adjust_foldl_snd (d b al m : ℚ) :
    ∀ (idx : List ℕ) (wm h : List ℚ),
    (idx.foldl (adjustStep d b al m) (wm, h)).2 =
      idx.foldl (fun h i => h.set i (h.getD i 0 * d)) h := by
  intro idx
  induction idx with
  | nil => intro wm h; rfl
  | cons i is ih =>
    intro wm h
    rw [List.foldl_cons, List.foldl_cons]
    exact ih _ _

lemma adjust_foldl_fst_length (d b al m : ℚ) :
    ∀ (idx : List ℕ) (wm h : List ℚ),
    (idx.foldl (adjustStep d b al m) (wm, h)).1.length = wm.length := by
  intro idx
  induction idx with
  | nil => intro wm h; rfl
  | cons i is ih =>
    intro wm h
    rw [List.foldl_cons]
    exact (ih _ _).trans (by simp [adjustStep])

lemma adjust_foldl_fst_mem (d b al m : ℚ) :
    ∀ (idx : List ℕ) (wm h : List ℚ), (∀ x ∈ wm, 0 ≤ x ∧ x ≤ 1) →
    ∀ x ∈ (idx.foldl (adjustStep d b al m) (wm, h)).1, 0 ≤ x ∧ x ≤ 1 := by
  intro idx
  induction idx with
  | nil => intro wm h hwm; exact hwm
  | cons i is ih =>
    intro wm h hwm
    rw [List.foldl_cons]
    apply ih
    intro x hx
    rcases List.mem_or_eq_of_mem_set hx with h1 | h1
    · exact hwm x h1
    · subst h1
      exact ⟨le_min (by norm_num) (le_max_left 0 _), min_le_left _ _⟩

lemma adjust_weight_map_nil (a : EARL_Agent) (d : ℚ) :
    _adjust_weight_map a d [] = a := by
  simp [_adjust_weight_map]

lemma adjust_weight_map_weight_map (a : EARL_Agent) (d : ℚ) (idx : List ℕ)
    (h : idx ≠ []) :
    (_adjust_weight_map a d idx).weight_map =
      _normalize (idx.foldl
        (adjustStep a.history_decay_factor a.history_bias_strength a.alpha
          (d / (idx.length : ℚ)))
        (a.weight_map, a.history)).1 := by
  simp only [_adjust_weight_map]
  rw [if_neg h]

lemma adjust_weight_map_history (a : EARL_Agent) (d : ℚ) (idx : List ℕ)
    (h : idx ≠ []) :
    (_adjust_weight_map a d idx).history =
      (idx.foldl
        (adjustStep a.history_decay_factor a.history_bias_strength a.alpha
          (d / (idx.length : ℚ)))
        (a.weight_map, a.history)).2 := by
  simp only [_adjust_weight_map]
  rw [if_neg h]

lemma mutate_weight_map_length (a : EARL_Agent) (d : ℕ → ℚ) :
    (_mutate_weight_map a d).weight_map.length = a.weight_map.length := by
  simp [_mutate_weight_map]

lemma afterMutation_weight_map_length (a : EARL_Agent) (inp : TickInput) :
    (afterMutation a inp).weight_map.length = a.weight_map.length := by
  simp only [afterMutation]
  split
  · exact (mutate_weight_map_length _ _).trans
      (congrArg List.length (adjust_mutation_step_fields a).1)
  · exact congrArg List.length (adjust_mutation_step_fields a).1

lemma afterMutation_weight_map_mem (a : EARL_Agent) (inp : TickInput)
    (hwm : ∀ x ∈ a.weight_map, 0 ≤ x ∧ x ≤ 1) :
    ∀ x ∈ (afterMutation a inp).weight_map, 0 ≤ x ∧ x ≤ 1 := by
  simp only [afterMutation]
  split
  · intro x hx
    simp only [_mutate_weight_map] at hx
    obtain ⟨i, _, rfl⟩ := List.mem_map.mp hx
    exact ⟨le_min (by norm_num) (le_max_left 0 _), min_le_left _ _⟩
  · rw [(adjust_mutation_step_fields a).1]
    exact hwm

lemma tick_weight_map_eq (a : EARL_Agent) (inp : TickInput) :
    (tick a inp).weight_map =
      (_adjust_weight_map (afterMutation a inp)
        (inp.fitness - (afterMutation a inp).last_fitness)
        (firedIndices a inp)).weight_map := rfl

lemma tick_history_eq (a : EARL_Agent) (inp : TickInput) :
    (tick a inp).history =
      updateHistory (inp.fitness - (afterMutation a inp).last_fitness)
        (firedIndices a inp)
        ((_adjust_weight_map (afterMutation a inp)
          (inp.fitness - (afterMutation a inp).last_fitness)
          (firedIndices a inp)).history) := rfl

lemma adjust_weight_map_mem (a : EARL_Agent) (d : ℚ) (idx : List ℕ)
    (hwm : ∀ x ∈ a.weight_map, 0 ≤ x ∧ x ≤ 1) :
    ∀ x ∈ (_adjust_weight_map a d idx).weight_map, 0 ≤ x ∧ x ≤ 1 := by
  rcases eq_or_ne idx [] with rfl | h
  · rw [adjust_weight_map_nil]
    exact hwm
  · rw [adjust_weight_map_weight_map a d idx h]
    apply mem_normalize_of_nonneg
    intro x hx
    exact (adjust_foldl_fst_mem _ _ _ _ idx a.weight_map a.history hwm x hx).1

lemma adjust_weight_map_sum (a : EARL_Agent) (d : ℚ) (idx : List ℕ)
    (h : idx ≠ []) (hwmne : a.weight_map ≠ []) :
    (_adjust_weight_map a d idx).weight_map.sum = 1 := by
  rw [adjust_weight_map_weight_map a d idx h]
  apply sum_normalize
  intro hnil
  have hlen := adjust_foldl_fst_length a.history_decay_factor
    a.history_bias_strength a.alpha (d / (idx.length : ℚ)) idx
    a.weight_map a.history
  rw [hnil] at hlen
  exact hwmne (List.length_eq_zero.mp hlen.symm)

/-- C1: after any completed `tick()` on an agent with a non-empty action
space whose weight map satisfies the `[0,1]` invariant (and with
`mutation_step ≥ 1` throughout, so the Python modulo is defined), every
weight-map entry lies in `[0,1]`; and if at least one action fired this
tick, the weight map sums to exactly 1. -/
theorem tick_weight_map_distribution (a : EARL_Agent) (inp : TickInput)
    (hwm : ∀ x ∈ a.weight_map, 0 ≤ x ∧ x ≤ 1)
    (hne : a.weight_map ≠ [])
    (hstep : 1 ≤ (_adjust_mutation_step a).mutation_step) :
    (∀ x ∈ (tick a inp).weight_map, 0 ≤ x ∧ x ≤ 1) ∧
    (firedIndices a inp ≠ [] → (tick a inp).weight_map.sum = 1) := by
  constructor
  · rw [tick_weight_map_eq]
    exact adjust_weight_map_mem _ _ _ (afterMutation_weight_map_mem a inp hwm)
  · intro hf
    rw [tick_weight_map_eq]
    apply adjust_weight_map_sum _ _ _ hf
    intro hnil
    have hlen := afterMutation_weight_map_length a inp
    rw [hnil] at hlen
    exact hne (List.length_eq_zero.mp hlen.symm)

/-- Concrete agent used to witness the tick-level theorems. -/
def wAgent1 : EARL_Agent where
  n := 2
  weight_map := [1/2, 1/2]
  alpha := 1
  last_fitness := 0
  mutation_step := 3
  weight_variance_threshold := 1/2
  min_mutation_step := 3
  max_mutation_step := 10
  mutation_strength := 1/10
  history := [0, 0]
  history_bias_strength := 1/10
  history_decay_factor := 9/10
  ticks := 0

/-- Concrete tick input used to witness the tick-level theorems. -/
def wInput1 : TickInput where
  mutDraws := fun _ => 1/10
  sampleDraws := fun _ => 0
  fitness := 1

/-- Closed-instance witness for `tick_weight_map_distribution`. -/
theorem tick_weight_map_distribution_witness :
    (∀ x ∈ (tick wAgent1 wInput1).weight_map, 0 ≤ x ∧ x ≤ 1) ∧
    (firedIndices wAgent1 wInput1 ≠ [] →
      (tick wAgent1 wInput1).weight_map.sum = 1) :=
  tick_weight_map_distribution wAgent1 wInput1
    (by intro x hx; simp only [wAgent1] at hx; fin_cases hx <;> norm_num)
    (by simp [wAgent1])
    (by
      have hv : _variance wAgent1.weight_map = 0 := by
        norm_num [wAgent1, _variance]
      unfold _adjust_mutation_step
      rw [hv, if_pos (by norm_num [wAgent1])]
      norm_num [wAgent1])

lemma adjust_weight_map_history_getD (a : EARL_Agent) (d : ℚ) (idx : List ℕ)
    (hnd : idx.Nodup) (hb : ∀ i ∈ idx, i < a.history.length) (j : ℕ) :
    (_adjust_weight_map a d idx).history.getD j 0 =
      if j ∈ idx then a.history.getD j 0 * a.history_decay_factor
      else a.history.getD j 0 := by
  rcases eq_or_ne idx [] with rfl | h
  · rw [adjust_weight_map_nil]
    simp
  · rw [adjust_weight_map_history a d idx h, adjust_foldl_snd,
      foldl_decay_getD _ idx a.history hnd hb j]

lemma adjust_weight_map_history_length (a : EARL_Agent) (d : ℚ)
    (idx : List ℕ) :
    (_adjust_weight_map a d idx).history.length = a.history.length := by
  rcases eq_or_ne idx [] with rfl | h
  · rw [adjust_weight_map_nil]
  · rw [adjust_weight_map_history a d idx h, adjust_foldl_snd]
    simpa using foldl_setD_length (fun x => x * a.history_decay_factor) idx
      a.history

lemma updateHistory_getD (d : ℚ) (idx : List ℕ) (h : List ℚ)
    (hnd : idx.Nodup) (hb : ∀ i ∈ idx, i < h.length) (j : ℕ) :
    (updateHistory d idx h).getD j 0 =
      if j ∈ idx then (if 0 < d then h.getD j 0 + 1 else 0)
      else h.getD j 0 := by
  unfold updateHistory
  by_cases hd : 0 < d
  · rw [if_pos hd, foldl_incr_getD idx h hnd hb j]
    simp [hd]
  · rw [if_neg hd, foldl_zero_getD idx h hnd hb j]
    simp [hd]

lemma adjust_mutation_step_decay (a : EARL_Agent) :
    (_adjust_mutation_step a).history_decay_factor
      = a.history_decay_factor := by
  unfold _adjust_mutation_step
  split <;> rfl

lemma afterMutation_decay (a : EARL_Agent) (inp : TickInput) :
    (afterMutation a inp).history_decay_factor = a.history_decay_factor := by
  simp only [afterMutation]
  split
  · exact adjust_mutation_step_decay a
  · exact adjust_mutation_step_decay a

lemma firedIndices_lt (a : EARL_Agent) (inp : TickInput) :
    ∀ i ∈ firedIndices a inp, i < a.weight_map.length := by
  intro i hi
  have := (mem_sampleIndices.mp hi).1
  rwa [afterMutation_weight_map_length] at this

/-- C3: for every fired index `i` of a tick, if `delta_fitness > 0` then the
post-tick history at `i` is the pre-tick value times `history_decay_factor`
plus 1, and if `delta_fitness ≤ 0` it is exactly 0; history entries at
non-fired indices are unchanged. -/
theorem tick_history_update (a : EARL_Agent) (inp : TickInput)
    (hlen : a.history.length = a.weight_map.length) (j : ℕ)
    (hj : j < a.history.length) :
    ((j ∈ firedIndices a inp ∧ 0 < inp.fitness - a.last_fitness) →
      (tick a inp).history.getD j 0
        = a.history.getD j 0 * a.history_decay_factor + 1) ∧
    ((j ∈ firedIndices a inp ∧ inp.fitness - a.last_fitness ≤ 0) →
      (tick a inp).history.getD j 0 = 0) ∧
    (j ∉ firedIndices a inp →
      (tick a inp).history.getD j 0 = a.history.getD j 0) := by
  have hnd : (firedIndices a inp).Nodup :=
    sampleIndices_nodup (afterMutation a inp).weight_map inp.sampleDraws
  have hba : ∀ i ∈ firedIndices a inp, i < (afterMutation a inp).history.length := by
    intro i hi
    rw [afterMutation_history, hlen]
    exact firedIndices_lt a inp i hi
  have hadjlen : (_adjust_weight_map (afterMutation a inp)
      (inp.fitness - (afterMutation a inp).last_fitness)
      (firedIndices a inp)).history.length
      = (afterMutation a inp).history.length :=
    adjust_weight_map_history_length _ _ _
  have hgetD : ∀ k, (tick a inp).history.getD k 0 =
      if k ∈ firedIndices a inp then
        (if 0 < inp.fitness - a.last_fitness then
          a.history.getD k 0 * a.history_decay_factor + 1 else 0)
      else a.history.getD k 0 := by
    intro k
    rw [tick_history_eq]
    rw [updateHistory_getD _ _ _ hnd (by rw [hadjlen]; exact hba) k]
    rw [adjust_weight_map_history_getD _ _ _ hnd hba k]
    rw [afterMutation_history, afterMutation_decay, afterMutation_last_fitness]
    by_cases hk : k ∈ firedIndices a inp <;> simp [hk]
  refine ⟨?_, ?_, ?_⟩
  · rintro ⟨hjf, hpos⟩
    rw [hgetD j, if_pos hjf, if_pos hpos]
  · rintro ⟨hjf, hneg⟩
    rw [hgetD j, if_pos hjf, if_neg (not_lt.mpr hneg)]
  · intro hjf
    rw [hgetD j, if_neg hjf]

/-- Closed-instance witness for `tick_history_update`. -/
theorem tick_history_update_witness :
    ((0 ∈ firedIndices wAgent1 wInput1 ∧
        0 < wInput1.fitness - wAgent1.last_fitness) →
      (tick wAgent1 wInput1).history.getD 0 0
        = wAgent1.history.getD 0 0 * wAgent1.history_decay_factor + 1) ∧
    ((0 ∈ firedIndices wAgent1 wInput1 ∧
        wInput1.fitness - wAgent1.last_fitness ≤ 0) →
      (tick wAgent1 wInput1).history.getD 0 0 = 0) ∧
    (0 ∉ firedIndices wAgent1 wInput1 →
      (tick wAgent1 wInput1).history.getD 0 0
        = wAgent1.history.getD 0 0) :=
  tick_history_update wAgent1 wInput1 (by simp [wAgent1]) 0
    (by simp [wAgent1])

lemma updateHistory_nil (d : ℚ) (h : List ℚ) : updateHistory d [] h = h := by
  unfold updateHistory
  split <;> rfl

/-- C7: with an action space of size 1 the fired set of a tick has at most
one element, `_adjust_weight_map` returns without evaluating the
`weight_modifier` division when the fired set is empty, and `normalize` of
any single-element sequence of a non-negative real is `[1]`. -/
theorem single_action_safety (a : EARL_Agent) (inp : TickInput)
    (h1 : a.weight_map.length = 1) :
    (firedIndices a inp).length ≤ 1 ∧
    (∀ (b : EARL_Agent) (d : ℚ), _adjust_weight_map b d [] = b) ∧
    (∀ x : ℚ, 0 ≤ x → _normalize [x] = [1]) := by
  refine ⟨?_, fun b d => adjust_weight_map_nil b d, ?_⟩
  · have hle := sampleIndices_length_le (afterMutation a inp).weight_map
      inp.sampleDraws
    rw [afterMutation_weight_map_length, h1] at hle
    exact hle
  · intro x _
    unfold _normalize
    by_cases hx : x = 0
    · subst hx
      norm_num
    · rw [if_pos (by simpa using hx)]
      simp [div_self hx]

/-- Concrete single-action agent for the `single_action_safety` witness. -/
def wAgentSingle : EARL_Agent :=
  { wAgent1 with n := 1, weight_map := [1/2], history := [0] }

/-- Closed-instance witness for `single_action_safety`. -/
theorem single_action_safety_witness :
    (firedIndices wAgentSingle wInput1).length ≤ 1 ∧
    (∀ (b : EARL_Agent) (d : ℚ), _adjust_weight_map b d [] = b) ∧
    (∀ x : ℚ, 0 ≤ x → _normalize [x] = [1]) :=
  single_action_safety wAgentSingle wInput1 (by simp [wAgentSingle])

/-- C10: in a tick where, after the mutation-step adjustment, the tick
counter is not a multiple of `mutation_step` (no mutation pass) and no
action fires, the weight map and the history are unchanged; the whole
post-tick state is the pre-tick state with only `mutation_step` (already
adjusted), `last_fitness`, and the tick counter rewritten. -/
theorem tick_frame (a : EARL_Agent) (inp : TickInput)
    (hmod : ¬ ((a.ticks : ℤ) % (_adjust_mutation_step a).mutation_step = 0))
    (hfired : firedIndices a inp = []) :
    (tick a inp).weight_map = a.weight_map ∧
    (tick a inp).history = a.history ∧
    tick a inp = { _adjust_mutation_step a with
      last_fitness := inp.fitness, ticks := a.ticks + 1 } := by
  have hticks : ((_adjust_mutation_step a).ticks : ℤ) = (a.ticks : ℤ) := by
    rw [(adjust_mutation_step_fields a).2.2.2.1]
  have hAM : afterMutation a inp = _adjust_mutation_step a := by
    simp only [afterMutation]
    rw [if_neg (by rw [hticks]; exact hmod)]
  have hadj : _adjust_weight_map (afterMutation a inp)
      (inp.fitness - (afterMutation a inp).last_fitness)
      (firedIndices a inp) = afterMutation a inp := by
    rw [hfired, adjust_weight_map_nil]
  refine ⟨?_, ?_, ?_⟩
  · rw [tick_weight_map_eq, hadj, hAM, (adjust_mutation_step_fields a).1]
  · rw [tick_history_eq, hadj, hAM, (adjust_mutation_step_fields a).2.2.1,
      hfired, updateHistory_nil]
  · have ht : tick a inp = { _adjust_weight_map (afterMutation a inp)
        (inp.fitness - (afterMutation a inp).last_fitness)
        (firedIndices a inp) with
      last_fitness := inp.fitness
      history := updateHistory
        (inp.fitness - (afterMutation a inp).last_fitness)
        (firedIndices a inp)
        ((_adjust_weight_map (afterMutation a inp)
          (inp.fitness - (afterMutation a inp).last_fitness)
          (firedIndices a inp)).history)
      ticks := (_adjust_weight_map (afterMutation a inp)
        (inp.fitness - (afterMutation a inp).last_fitness)
        (firedIndices a inp)).ticks + 1 } := rfl
    rw [ht, hadj, hAM, hfired, updateHistory_nil,
      (adjust_mutation_step_fields a).2.2.2.1]

/-- Concrete mid-run agent (tick counter 1) for the `tick_frame` witness. -/
def wAgentFrame : EARL_Agent := { wAgent1 with ticks := 1 }

/-- Concrete tick input whose sampling draws fire no action. -/
def wInputFrame : TickInput where
  mutDraws := fun _ => 0
  sampleDraws := fun _ => 1
  fitness := 2

/-- Closed-instance witness for `tick_frame`. -/
theorem tick_frame_witness :
    (tick wAgentFrame wInputFrame).weight_map = wAgentFrame.weight_map ∧
    (tick wAgentFrame wInputFrame).history = wAgentFrame.history ∧
    tick wAgentFrame wInputFrame = { _adjust_mutation_step wAgentFrame with
      last_fitness := wInputFrame.fitness,
      ticks := wAgentFrame.ticks + 1 } :=
  tick_frame wAgentFrame wInputFrame
    (by
      have hv : _variance wAgentFrame.weight_map = 0 := by
        norm_num [wAgentFrame, wAgent1, _variance]
      unfold _adjust_mutation_step
      rw [hv, if_pos (by norm_num [wAgentFrame, wAgent1])]
      norm_num [wAgentFrame, wAgent1])
    (by
      have hv : _variance wAgentFrame.weight_map = 0 := by
        norm_num [wAgentFrame, wAgent1, _variance]
      have hAM : afterMutation wAgentFrame wInputFrame
          = _adjust_mutation_step wAgentFrame := by
        simp only [afterMutation]
        rw [if_neg]
        unfold _adjust_mutation_step
        rw [hv, if_pos (by norm_num [wAgentFrame, wAgent1])]
        norm_num [wAgentFrame, wAgent1]
      rw [firedIndices, hAM]
      unfold _adjust_mutation_step
      rw [hv, if_pos (by norm_num [wAgentFrame, wAgent1])]
      norm_num [sampleIndices, wAgentFrame, wAgent1, wInputFrame,
        List.filter])

/-- The `[0,1]` weight-map invariant assumed by `tick_weight_map_distribution`
holds at construction: a fresh agent's weight map is a normalization of
non-negative draws. -/
lemma init_weight_map_mem (n : ℕ) (initDraws : ℕ → ℚ) (fitness0 wvt ms : ℚ)
    (mn mx : ℤ) (hbs hdf al : ℚ) (hd : ∀ i, 0 ≤ initDraws i) :
    ∀ x ∈ (EARL_Agent.init n initDraws fitness0 wvt ms mn mx hbs hdf
      al).weight_map, 0 ≤ x ∧ x ≤ 1 := by
  apply mem_normalize_of_nonneg
  intro x hx
  obtain ⟨i, _, rfl⟩ := List.mem_map.mp hx
  exact hd i
